import Mathlib

/-
Verification of src/common/param_package.{h,cpp} (class Common::ParamPackage),
a string-based key-value container with a custom serialization format.

Strings are modelled as `List Char`.  C++ `std::string` is a byte string, but
every character this code inspects ('$', ',', ':', '|', '[', ']', '#', digits)
is ASCII, and UTF-8 preserves lexicographic order, so the codepoint-level model
agrees with the byte-level code on all inputs.

Operations that can throw in C++ (the deserializing constructor and the two
package-valued Get overloads, via ReplacePlaceholders / std::stoi) are
modelled with `Option`: `none` means an exception escapes to the caller.
-/

set_option maxRecDepth 4000

namespace Common

/-- Modelled from the spec: Common::SplitString from string_util is not under
src/.  The spec says: "A string-splitting utility divides text on a
single-character delimiter, preserving empty fields." -/
def SplitString (d : Char) : List Char → List (List Char)
  | [] => [[]]
  | c :: cs =>
    match SplitString d cs with
    | [] => []
    | h :: t => if c = d then [] :: h :: t else (c :: h) :: t

/-- Replacement of a single-character pattern `t` by `rep`, scanning left to
right and never rescanning inserted text (the semantics of the std::string
find/replace loop of Common::ReplaceAll). -/
def ReplaceAll1 (t : Char) (rep : List Char) : List Char → List Char
  | [] => []
  | c :: cs => if c = t then rep ++ ReplaceAll1 t rep cs else c :: ReplaceAll1 t rep cs

/-- Replacement of a two-character pattern `a b` by `rep`, scanning left to
right and never rescanning inserted text. -/
def ReplaceAll2 (a b : Char) (rep : List Char) : List Char → List Char
  | [] => []
  | [c] => [c]
  | c :: d :: cs =>
    if c = a ∧ d = b then rep ++ ReplaceAll2 a b rep cs
    else c :: ReplaceAll2 a b rep (d :: cs)

/-- Modelled from the spec: Common::ReplaceAll from string_util is not under
src/.  It replaces every occurrence of `pat` in `s` by `rep`, scanning left to
right, continuing after each inserted replacement.  ParamPackage only ever
calls it with one- and two-character patterns, so only those cases are
modelled. -/
def ReplaceAll (s pat rep : List Char) : List Char :=
  match pat with
  | [t] => ReplaceAll1 t rep s
  | [a, b] => ReplaceAll2 a b rep s
  | _ => s

/-- The escaping applied by Serialize to each key and value (lines 76-80 of
param_package.cpp): escape the escape character first, then the pair
separator, then the key/value separator. -/
def EscapeParam (s : List Char) : List Char :=
  ReplaceAll (ReplaceAll (ReplaceAll s ['$'] ['$', '2']) [','] ['$', '1']) [':'] ['$', '0']

/-- The unescaping applied by the deserializing constructor to each split part
(lines 52-56 of param_package.cpp): in order, the key/value separator escape,
the pair separator escape, the escape character escape. -/
def UnescapeParam (s : List Char) : List Char :=
  ReplaceAll (ReplaceAll (ReplaceAll s ['$', '0'] [':']) ['$', '1'] [',']) ['$', '2'] ['$']

/-- Membership test for a character in a string (std::string::find ≠ npos). -/
def containsCh (c : Char) : List Char → Bool
  | [] => false
  | a :: t => a == c || containsCh c t

/-- Whether `pat` occurs as a contiguous substring of the second argument. -/
def isPref : List Char → List Char → Bool
  | [], _ => true
  | _ :: _, [] => false
  | a :: as, b :: bs => a == b && isPref as bs

/-- Whether `pat` occurs as a contiguous substring of `s`. -/
def hasSubstr (pat : List Char) : List Char → Bool
  | [] => pat.isEmpty
  | c :: cs => isPref pat (c :: cs) || hasSubstr pat cs

/-- Whether the string contains a match of the regex `##([\d]+)`, i.e. two
hashes immediately followed by a decimal digit. -/
def hasTok : List Char → Bool
  | [] => false
  | [_] => false
  | [_, _] => false
  | a :: b :: c :: rest => (a == '#' && b == '#' && c.isDigit) || hasTok (b :: c :: rest)

/-- Models std::stoi of line 343 applied to a possibly non-numeric string,
with the surrounding catch of std::logic_error where present: skip leading
whitespace, optional sign, at least one decimal digit, ignore the rest;
`none` when no digits are found or the value does not fit in a 32-bit int
(std::invalid_argument / std::out_of_range, both std::logic_error). -/
def stoi (s : List Char) : Option Int :=
  let t := s.dropWhile (fun c => c == ' ' || c == '\t' || c == '\n' ||
    c == '\x0b' || c == '\x0c' || c == '\r')
  let signed : Bool × List Char :=
    match t with
    | '-' :: r => (true, r)
    | '+' :: r => (false, r)
    | r => (false, r)
  let ds := signed.2.takeWhile Char.isDigit
  if ds = [] then none
  else
    let n : Nat := ds.foldl (fun a c => a * 10 + (c.toNat - 48)) 0
    let v : Int := if signed.1 then -(n : Int) else (n : Int)
    if v < -2147483648 ∨ 2147483647 < v then none else some v

/-
The regex LIST_MATCH = \[(?:\[??[^\[]*?\]) of line 22.  With ECMAScript lazy
semantics its leftmost match is found as follows: at a position holding '[',
look at the first following bracket character ('[' or ']'); if it is ']' the
match runs up to it; if it is an immediately adjacent '[' (and the first
bracket after that is a ']'), the match includes it and runs to that ']';
otherwise there is no match at this position and the scan moves right.
-/

/-- Index and kind (true = ']') of the first bracket character of the list. -/
def firstBr : List Char → Option (Nat × Bool)
  | [] => none
  | c :: t =>
    if c = ']' then some (0, true)
    else if c = '[' then some (0, false)
    else (firstBr t).map (fun nb => (nb.1 + 1, nb.2))

/-- Total length of the LIST_MATCH match starting at a '[' whose following
characters are `rest`, when a match starts there. -/
def matchLenAfterBracket (rest : List Char) : Option Nat :=
  match firstBr rest with
  | some (j, true) => some (j + 2)
  | some (0, false) =>
    match firstBr (rest.drop 1) with
    | some (j2, true) => some (j2 + 3)
    | _ => none
  | _ => none

/-- Leftmost LIST_MATCH match of the string: start index and length. -/
def scanMatch : List Char → Nat → Option (Nat × Nat)
  | [], _ => none
  | c :: rest, i =>
    if c = '[' then
      match matchLenAfterBracket rest with
      | some len => some (i, len)
      | none => scanMatch rest (i + 1)
    else scanMatch rest (i + 1)

/-- One pass of the PlaceholderifyData loop body (lines 330-335): replace the
leftmost match by "##N" where N is the current lookup size, and append the
matched text to the lookup.  The fuel bounds the number of iterations; each
iteration removes at least one '[', so `length + 1` fuel is never exhausted. -/
def PlaceholderifyAux : Nat → List Char → List (List Char) → List Char × List (List Char)
  | 0, s, lk => (s, lk)
  | fuel + 1, s, lk =>
    match scanMatch s 0 with
    | none => (s, lk)
    | some (i, len) =>
      let matched := (s.drop i).take len
      let s2 := s.take i ++ '#' :: '#' :: (Nat.repr lk.length).data ++ s.drop (i + len)
      PlaceholderifyAux fuel s2 (lk ++ [matched])

/-- ParamPackage::PlaceholderifyData (lines 326-337): repeatedly replace the
leftmost bracketed region with a "##N" placeholder, recording the region in
the lookup table.  (s.find of the matched text equals the match position,
because any earlier occurrence of the same text would itself be a leftmost
match.) -/
def PlaceholderifyData (s : List Char) : List Char × List (List Char) :=
  PlaceholderifyAux (s.length + 1) s []

/-- ParamPackage::ReplacePlaceholders (lines 339-346).  The range-for over the
smatch visits the full match m[0] = "##N" first, and every argument of the
str.replace call is evaluated, including lookup[std::stoi(m[0].str())];
std::stoi("##N") always throws std::invalid_argument.  Hence the function
throws (modelled as `none`) whenever the string contains a placeholder token,
and otherwise leaves the string unchanged. -/
def ReplacePlaceholders (s : List Char) (lookup : List (List Char)) : Option (List Char) :=
  if hasTok s then none else some s

/-- Strict lexicographic order on strings by character code, the order of
std::map<std::string, std::string> (operator< of std::string). -/
def ltStr : List Char → List Char → Bool
  | [], [] => false
  | [], _ :: _ => true
  | _ :: _, [] => false
  | a :: as, b :: bs =>
    if a.toNat < b.toNat then true
    else if b.toNat < a.toNat then false
    else ltStr as bs

/-- A ParamPackage is its DataType, std::map<std::string, std::string>,
modelled as an association list kept strictly sorted by key. -/
abbrev ParamPackage := List (List Char × List Char)

/-- Keys strictly ascending: the representation invariant of std::map. -/
abbrev SortedKeys (p : ParamPackage) : Prop :=
  List.Pairwise (fun a b => ltStr a.1 b.1 = true) p

/-- std::map::find by key. -/
def lookupKV (key : List Char) : ParamPackage → Option (List Char)
  | [] => none
  | kv :: t => if kv.1 = key then some kv.2 else lookupKV key t

/-- std::map::insert_or_assign on the sorted-list representation. -/
def insertSorted (k v : List Char) : ParamPackage → ParamPackage
  | [] => [(k, v)]
  | kv :: t =>
    if ltStr k kv.1 then (k, v) :: kv :: t
    else if k = kv.1 then (k, v) :: t
    else kv :: insertSorted k v t

/-- ParamPackage::Serialize (lines 68-86): "[empty]" for an empty map,
otherwise for each pair in key order append escaped key, ':', escaped value,
',' and finally discard the trailing separator. -/
def Serialize (p : ParamPackage) : List Char :=
  if p = [] then "[empty]".data
  else
    ((p.map (fun kv => EscapeParam kv.1 ++ ':' :: EscapeParam kv.2 ++ [','])).flatten).dropLast

/-- The body of the pair loop of the deserializing constructor (lines 44-59):
split the pair on ':'; unless it yields exactly two parts the pair is skipped;
otherwise both parts are unescaped and stored via Set. -/
def parsePairStep (acc : ParamPackage) (pair : List Char) : ParamPackage :=
  match SplitString ':' pair with
  | [k, v] => insertSorted (UnescapeParam k) (UnescapeParam v) acc
  | _ => acc

/-- ParamPackage::ParamPackage(const std::string&) (lines 33-64): the empty
sentinel gives the empty map; otherwise placeholderify, split on ',', parse
each pair, then run ReplacePlaceholders over every stored value.  That final
loop throws (none) as soon as some value contains a placeholder token, and
otherwise changes nothing. -/
def FromSerialized (ser : List Char) : Option ParamPackage :=
  if ser = "[empty]".data then some []
  else
    let s := (PlaceholderifyData ser).1
    let p := (SplitString ',' s).foldl parsePairStep []
    if p.any (fun kv => hasTok kv.2) then none else some p

/-- ParamPackage::Has (lines 296-298). -/
def Has (p : ParamPackage) (key : List Char) : Bool :=
  (lookupKV key p).isSome

/-- ParamPackage::Get(key, string) (lines 90-98). -/
def GetString (p : ParamPackage) (key d : List Char) : List Char :=
  match lookupKV key p with
  | none => d
  | some v => v

/-- The front == '[' and back == ']' test of the vector and package getters.
On an empty stored value front()/back() are undefined behaviour in C++; the
model treats the test as failing, matching libstdc++ where front() reads the
null terminator. -/
def isBracketed (v : List Char) : Bool :=
  v.head? == some '[' && v.getLast? == some ']'

/-- substr(1, size - 2): the text between the outer brackets. -/
def innerVal (v : List Char) : List Char :=
  (v.drop 1).dropLast

/-- ParamPackage::Get(key, vector<string>) (lines 100-120): value must be
bracketed, else the default; strip brackets and split on '|'. -/
def GetStringList (p : ParamPackage) (key : List Char) (d : List (List Char)) :
    List (List Char) :=
  match lookupKV key p with
  | none => d
  | some v => if isBracketed v then SplitString '|' (innerVal v) else d

/-- The element loop of Get(key, vector<int>): parse every element, aborting
with none at the first failure. -/
def stoiAll : List (List Char) → Option (List Int)
  | [] => some []
  | x :: t =>
    match stoi x, stoiAll t with
    | some i, some r => some (i :: r)
    | _, _ => none

/-- ParamPackage::Get(key, vector<int>) (lines 137-153): decode as a list of
strings with default {}; if empty return the default; parse each element,
returning the default on any failure. -/
def GetIntList (p : ParamPackage) (key : List Char) (d : List Int) : List Int :=
  let vec0 := GetStringList p key []
  if vec0 = [] then d
  else
    match stoiAll vec0 with
    | some v => v
    | none => d

/-- ParamPackage::Get(key, ParamPackage) (lines 188-218): value must be
bracketed; the placeholderified inner text must contain no '|' and at least
one ','; then the inner text is parsed as a package (which can throw). -/
def GetPackage (p : ParamPackage) (key : List Char) (d : ParamPackage) :
    Option ParamPackage :=
  match lookupKV key p with
  | none => some d
  | some v =>
    if isBracketed v then
      let val := innerVal v
      let chk := (PlaceholderifyData val).1
      if containsCh '|' chk then some d
      else if containsCh ',' chk = false then some d
      else FromSerialized val
    else some d

/-- The element loop of Get(key, vector<ParamPackage>): construct a package
from every element, aborting with none at the first constructor throw. -/
def fromSerializedAll : List (List Char) → Option (List ParamPackage)
  | [] => some []
  | x :: t =>
    match FromSerialized x, fromSerializedAll t with
    | some p, some r => some (p :: r)
    | _, _ => none

/-- ParamPackage::Get(key, vector<ParamPackage>) (lines 220-254): value must
be bracketed; the placeholderified inner text must contain a ','; split it on
'|'; run ReplacePlaceholders on every element (which throws on any element
still holding a token); construct one package per element. -/
def GetPackageList (p : ParamPackage) (key : List Char) (d : List ParamPackage) :
    Option (List ParamPackage) :=
  match lookupKV key p with
  | none => some d
  | some v =>
    if isBracketed v then
      let val := (PlaceholderifyData (innerVal v)).1
      if containsCh ',' val = false then some d
      else
        let vec := SplitString '|' val
        if vec.any hasTok then none else fromSerializedAll vec
    else some d

/-- ParamPackage::Set(key, string) (lines 258-260). -/
def SetString (p : ParamPackage) (key v : List Char) : ParamPackage :=
  insertSorted key v p

/-- ParamPackage::Set(key, ParamPackage) (lines 282-284): the stored value is
value.Serialize(), with no surrounding brackets. -/
def SetPackage (p : ParamPackage) (key : List Char) (v : ParamPackage) : ParamPackage :=
  insertSorted key (Serialize v) p

/-- fmt::join: the given strings joined by the single-character separator. -/
def joinSep (d : Char) : List (List Char) → List Char
  | [] => []
  | [x] => x
  | x :: y :: t => x ++ d :: joinSep d (y :: t)

/-- ParamPackage::Set(key, vector<ParamPackage>) (lines 286-288): the stored
value is '[' ++ the serializations joined by '|' ++ ']' (the fmt::formatter
of lines 357-367 renders each element as its Serialize() output). -/
def SetPackageList (p : ParamPackage) (key : List Char) (vs : List ParamPackage) :
    ParamPackage :=
  insertSorted key ('[' :: joinSep '|' (vs.map Serialize) ++ [']']) p

end Common

/-
Lemma development.  First: the escaping scheme.  EscapeParam rewrites each
character independently (the three ReplaceAll passes never interfere, since
the characters they insert are not targets of later passes), which is captured
by the chunk decomposition below.
-/

namespace Common

/-- Per-character chunk expansion. -/
def chunks (g : Char → List Char) : List Char → List Char
  | [] => []
  | c :: cs => g c ++ chunks g cs

/-- The per-character form of full escaping. -/
def escCh (c : Char) : List Char :=
  if c = '$' then ['$', '2']
  else if c = ',' then ['$', '1']
  else if c = ':' then ['$', '0']
  else [c]

/-- After undoing the key/value-separator escape. -/
def escCh1 (c : Char) : List Char :=
  if c = '$' then ['$', '2']
  else if c = ',' then ['$', '1']
  else [c]

/-- After also undoing the pair-separator escape. -/
def escCh2 (c : Char) : List Char :=
  if c = '$' then ['$', '2'] else [c]

theorem chunks_append (g : Char → List Char) (a b : List Char) :
    chunks g (a ++ b) = chunks g a ++ chunks g b := by
  induction a with
  | nil => rfl
  | cons c cs ih => simp [chunks, ih]

theorem chunks_chunks (g f : Char → List Char) (s : List Char) :
    chunks g (chunks f s) = chunks (fun c => chunks g (f c)) s := by
  induction s with
  | nil => rfl
  | cons c cs ih => simp only [chunks, chunks_append, ih]

theorem chunks_congr {g f : Char → List Char} (h : ∀ c, g c = f c) (s : List Char) :
    chunks g s = chunks f s := by
  induction s with
  | nil => rfl
  | cons c cs ih => simp only [chunks, h, ih]

theorem ReplaceAll1_eq_chunks (t : Char) (rep : List Char) (s : List Char) :
    ReplaceAll1 t rep s = chunks (fun c => if c = t then rep else [c]) s := by
  induction s with
  | nil => rfl
  | cons c cs ih =>
    by_cases h : c = t <;> simp [ReplaceAll1, chunks, h, ih]

theorem escape_eq_chunks (s : List Char) : EscapeParam s = chunks escCh s := by
  unfold EscapeParam
  simp only [ReplaceAll, ReplaceAll1_eq_chunks, chunks_chunks]
  refine chunks_congr (fun c => ?_) s
  by_cases h1 : c = '$'
  · subst h1; rfl
  · by_cases h2 : c = ','
    · subst h2; rfl
    · by_cases h3 : c = ':'
      · subst h3; rfl
      · simp [chunks, escCh, h1, h2, h3]

theorem ReplaceAll2_cons_ne (a b : Char) (r : List Char) (c : Char) (rest : List Char)
    (h : c ≠ a) : ReplaceAll2 a b r (c :: rest) = c :: ReplaceAll2 a b r rest := by
  cases rest with
  | nil => simp [ReplaceAll2]
  | cons d t => simp [ReplaceAll2, h]

theorem unesc_pass1 (s : List Char) :
    ReplaceAll2 '$' '0' [':'] (chunks escCh s) = chunks escCh1 s := by
  induction s with
  | nil => rfl
  | cons c cs ih =>
    by_cases h1 : c = '$'
    · subst h1
      show ReplaceAll2 '$' '0' [':'] ('$' :: '2' :: chunks escCh cs) = _
      rw [show ReplaceAll2 '$' '0' [':'] ('$' :: '2' :: chunks escCh cs) =
          '$' :: ReplaceAll2 '$' '0' [':'] ('2' :: chunks escCh cs) by
        simp [ReplaceAll2]]
      rw [ReplaceAll2_cons_ne _ _ _ _ _ (by decide), ih]
      rfl
    · by_cases h2 : c = ','
      · subst h2
        show ReplaceAll2 '$' '0' [':'] ('$' :: '1' :: chunks escCh cs) = _
        rw [show ReplaceAll2 '$' '0' [':'] ('$' :: '1' :: chunks escCh cs) =
            '$' :: ReplaceAll2 '$' '0' [':'] ('1' :: chunks escCh cs) by
          simp [ReplaceAll2]]
        rw [ReplaceAll2_cons_ne _ _ _ _ _ (by decide), ih]
        rfl
      · by_cases h3 : c = ':'
        · subst h3
          show ReplaceAll2 '$' '0' [':'] ('$' :: '0' :: chunks escCh cs) = _
          rw [show ReplaceAll2 '$' '0' [':'] ('$' :: '0' :: chunks escCh cs) =
              ':' :: ReplaceAll2 '$' '0' [':'] (chunks escCh cs) by
            simp [ReplaceAll2]]
          rw [ih]
          rfl
        · show ReplaceAll2 '$' '0' [':'] (escCh c ++ chunks escCh cs) = _
          rw [show escCh c = [c] by simp [escCh, h1, h2, h3]]
          rw [List.singleton_append, ReplaceAll2_cons_ne _ _ _ _ _ h1, ih]
          simp [chunks, escCh1, h1, h2]

theorem unesc_pass2 (s : List Char) :
    ReplaceAll2 '$' '1' [','] (chunks escCh1 s) = chunks escCh2 s := by
  induction s with
  | nil => rfl
  | cons c cs ih =>
    by_cases h1 : c = '$'
    · subst h1
      show ReplaceAll2 '$' '1' [','] ('$' :: '2' :: chunks escCh1 cs) = _
      rw [show ReplaceAll2 '$' '1' [','] ('$' :: '2' :: chunks escCh1 cs) =
          '$' :: ReplaceAll2 '$' '1' [','] ('2' :: chunks escCh1 cs) by
        simp [ReplaceAll2]]
      rw [ReplaceAll2_cons_ne _ _ _ _ _ (by decide), ih]
      rfl
    · by_cases h2 : c = ','
      · subst h2
        show ReplaceAll2 '$' '1' [','] ('$' :: '1' :: chunks escCh1 cs) = _
        rw [show ReplaceAll2 '$' '1' [','] ('$' :: '1' :: chunks escCh1 cs) =
            ',' :: ReplaceAll2 '$' '1' [','] (chunks escCh1 cs) by
          simp [ReplaceAll2]]
        rw [ih]
        rfl
      · show ReplaceAll2 '$' '1' [','] (escCh1 c ++ chunks escCh1 cs) = _
        rw [show escCh1 c = [c] by simp [escCh1, h1, h2]]
        rw [List.singleton_append, ReplaceAll2_cons_ne _ _ _ _ _ h1, ih]
        simp [chunks, escCh2, h1]

theorem unesc_pass3 (s : List Char) :
    ReplaceAll2 '$' '2' ['$'] (chunks escCh2 s) = s := by
  induction s with
  | nil => rfl
  | cons c cs ih =>
    by_cases h1 : c = '$'
    · subst h1
      show ReplaceAll2 '$' '2' ['$'] ('$' :: '2' :: chunks escCh2 cs) = _
      rw [show ReplaceAll2 '$' '2' ['$'] ('$' :: '2' :: chunks escCh2 cs) =
          '$' :: ReplaceAll2 '$' '2' ['$'] (chunks escCh2 cs) by
        simp [ReplaceAll2]]
      rw [ih]
    · show ReplaceAll2 '$' '2' ['$'] (escCh2 c ++ chunks escCh2 cs) = _
      rw [show escCh2 c = [c] by simp [escCh2, h1]]
      rw [List.singleton_append, ReplaceAll2_cons_ne _ _ _ _ _ h1, ih]

theorem unescape_escape (s : List Char) : UnescapeParam (EscapeParam s) = s := by
  rw [escape_eq_chunks]
  show ReplaceAll (ReplaceAll (ReplaceAll (chunks escCh s) ['$', '0'] [':'])
    ['$', '1'] [',']) ['$', '2'] ['$'] = s
  simp only [ReplaceAll]
  rw [unesc_pass1, unesc_pass2, unesc_pass3]

theorem mem_chunks {c : Char} {g : Char → List Char} {s : List Char}
    (h : c ∈ chunks g s) : ∃ x ∈ s, c ∈ g x := by
  induction s with
  | nil => simp [chunks] at h
  | cons a t ih =>
    simp only [chunks, List.mem_append] at h
    rcases h with h | h
    · exact ⟨a, List.mem_cons_self a t, h⟩
    · obtain ⟨x, hx, hcx⟩ := ih h
      exact ⟨x, List.mem_cons_of_mem a hx, hcx⟩

theorem mem_escape {c : Char} {s : List Char} (h : c ∈ EscapeParam s) :
    (c = '$' ∨ c = '0' ∨ c = '1' ∨ c = '2') ∨
      (c ∈ s ∧ c ≠ '$' ∧ c ≠ ',' ∧ c ≠ ':') := by
  rw [escape_eq_chunks] at h
  obtain ⟨x, hx, hcx⟩ := mem_chunks h
  by_cases h1 : x = '$'
  · subst h1; simp [escCh] at hcx
    rcases hcx with h | h <;> subst h <;> simp
  · by_cases h2 : x = ','
    · subst h2; simp [escCh] at hcx
      rcases hcx with h | h <;> subst h <;> simp
    · by_cases h3 : x = ':'
      · subst h3; simp [escCh] at hcx
        rcases hcx with h | h <;> subst h <;> simp
      · simp [escCh, h1, h2, h3] at hcx
        subst hcx
        exact Or.inr ⟨hx, h1, h2, h3⟩

theorem not_mem_escape {c : Char} {s : List Char}
    (hc : c ≠ '$' ∧ c ≠ '0' ∧ c ≠ '1' ∧ c ≠ '2') (hs : c ∉ s) :
    c ∉ EscapeParam s := by
  intro h
  rcases mem_escape h with h | h
  · rcases h with h | h | h | h
    · exact hc.1 h
    · exact hc.2.1 h
    · exact hc.2.2.1 h
    · exact hc.2.2.2 h
  · exact hs h.1

theorem comma_not_mem_escape (s : List Char) : ',' ∉ EscapeParam s := by
  intro h
  rcases mem_escape h with h | h
  · rcases h with h | h | h | h <;> simp at h
  · exact h.2.2.1 rfl

theorem colon_not_mem_escape (s : List Char) : ':' ∉ EscapeParam s := by
  intro h
  rcases mem_escape h with h | h
  · rcases h with h | h | h | h <;> simp at h
  · exact h.2.2.2 rfl

theorem escape_id {s : List Char} (h : ∀ c ∈ s, c ≠ '$' ∧ c ≠ ',' ∧ c ≠ ':') :
    EscapeParam s = s := by
  rw [escape_eq_chunks]
  induction s with
  | nil => rfl
  | cons c cs ih =>
    have hc := h c (List.mem_cons_self c cs)
    show escCh c ++ chunks escCh cs = c :: cs
    rw [show escCh c = [c] by simp [escCh, hc.1, hc.2.1, hc.2.2]]
    rw [List.singleton_append]
    rw [ih (fun x hx => h x (List.mem_cons_of_mem c hx))]

end Common

/-
Splitting and joining.
-/

namespace Common

theorem containsCh_eq_false_iff {c : Char} {s : List Char} :
    containsCh c s = false ↔ c ∉ s := by
  induction s with
  | nil => simp [containsCh]
  | cons a t ih =>
    simp only [containsCh, Bool.or_eq_false_iff, beq_eq_false_iff_ne, ne_eq,
      List.mem_cons, ih]
    constructor
    · rintro ⟨h1, h2⟩ (h | h)
      · exact h1 h.symm
      · exact h2 h
    · intro h
      exact ⟨fun e => h (Or.inl e.symm), fun e => h (Or.inr e)⟩

theorem containsCh_eq_true_iff {c : Char} {s : List Char} :
    containsCh c s = true ↔ c ∈ s := by
  cases h : containsCh c s with
  | false =>
    simp only [Bool.false_eq_true, false_iff]
    exact containsCh_eq_false_iff.mp h
  | true =>
    simp only [true_iff]
    by_contra hmem
    rw [containsCh_eq_false_iff.mpr hmem] at h
    exact Bool.false_ne_true h

theorem SplitString_ne_nil (d : Char) (s : List Char) : SplitString d s ≠ [] := by
  induction s with
  | nil => simp [SplitString]
  | cons c cs ih =>
    simp only [SplitString]
    cases h : SplitString d cs with
    | nil => exact absurd h ih
    | cons h2 t => by_cases hc : c = d <;> simp [hc]

theorem SplitString_no_delim {d : Char} {s : List Char} (h : d ∉ s) :
    SplitString d s = [s] := by
  induction s with
  | nil => rfl
  | cons c cs ih =>
    have hcd : c ≠ d := fun e => h (e ▸ List.mem_cons_self c cs)
    have htl : d ∉ cs := fun e => h (List.mem_cons_of_mem c e)
    simp only [SplitString, ih htl]
    simp [hcd]

theorem SplitString_append {d : Char} {a : List Char} (rest : List Char) (h : d ∉ a) :
    SplitString d (a ++ d :: rest) = a :: SplitString d rest := by
  induction a with
  | nil =>
    simp only [List.nil_append, SplitString]
    cases hs : SplitString d rest with
    | nil => exact absurd hs (SplitString_ne_nil d rest)
    | cons h2 t => simp
  | cons c cs ih =>
    have hcd : c ≠ d := fun e => h (e ▸ List.mem_cons_self c cs)
    have htl : d ∉ cs := fun e => h (List.mem_cons_of_mem c e)
    rw [List.cons_append]
    simp only [SplitString]
    rw [ih htl]
    simp [hcd]

theorem SplitString_joinSep {d : Char} {xs : List (List Char)}
    (h : ∀ x ∈ xs, d ∉ x) (hne : xs ≠ []) :
    SplitString d (joinSep d xs) = xs := by
  induction xs with
  | nil => exact absurd rfl hne
  | cons x t ih =>
    cases t with
    | nil =>
      simp only [joinSep]
      exact SplitString_no_delim (h x (List.mem_cons_self x []))
    | cons y u =>
      show SplitString d (x ++ d :: joinSep d (y :: u)) = _
      rw [SplitString_append _ (h x (List.mem_cons_self x (y :: u)))]
      rw [ih (fun z hz => h z (List.mem_cons_of_mem x hz)) (by simp)]

theorem mem_joinSep {c : Char} {d : Char} {xs : List (List Char)}
    (h : c ∈ joinSep d xs) : c = d ∨ ∃ x ∈ xs, c ∈ x := by
  induction xs with
  | nil => simp [joinSep] at h
  | cons x t ih =>
    cases t with
    | nil =>
      simp only [joinSep] at h
      exact Or.inr ⟨x, List.mem_cons_self x [], h⟩
    | cons y u =>
      simp only [joinSep, List.mem_append, List.mem_cons] at h
      rcases h with h | h | h
      · exact Or.inr ⟨x, List.mem_cons_self x (y :: u), h⟩
      · exact Or.inl h
      · rcases ih h with h2 | ⟨z, hz, hcz⟩
        · exact Or.inl h2
        · exact Or.inr ⟨z, List.mem_cons_of_mem x hz, hcz⟩

theorem joinSep_mem_decomp {x : List Char} {xs : List (List Char)} (d : Char)
    (h : x ∈ xs) : ∃ a b, joinSep d xs = a ++ x ++ b := by
  induction xs with
  | nil => simp at h
  | cons y t ih =>
    cases t with
    | nil =>
      simp at h
      subst h
      exact ⟨[], [], by simp [joinSep]⟩
    | cons z u =>
      rcases List.mem_cons.mp h with h | h
      · subst h
        exact ⟨[], d :: joinSep d (z :: u), by simp [joinSep]⟩
      · obtain ⟨a, b, hab⟩ := ih h
        refine ⟨y ++ d :: a, b, ?_⟩
        simp only [joinSep, hab]
        simp

theorem joinSep_delim_mem {d : Char} {xs : List (List Char)} (h : 2 ≤ xs.length) :
    d ∈ joinSep d xs := by
  match xs, h with
  | x :: y :: u, _ =>
    simp only [joinSep]
    simp

end Common

/-
The shape of Serialize, the order lemmas for the sorted map representation,
and the reconstruction of a sorted map by the constructor fold.
-/

namespace Common

/-- The text a single pair contributes to Serialize, without its trailing
separator. -/
def pairText (kv : List Char × List Char) : List Char :=
  EscapeParam kv.1 ++ ':' :: EscapeParam kv.2

theorem flatten_map_concat_dropLast (d : Char) :
    ∀ xs : List (List Char), xs ≠ [] →
      ((xs.map (fun x => x ++ [d])).flatten).dropLast = joinSep d xs := by
  intro xs
  induction xs with
  | nil => intro h; exact absurd rfl h
  | cons x t ih =>
    intro _
    cases t with
    | nil => simp [joinSep]
    | cons y u =>
      rw [show ((x :: y :: u).map (fun x => x ++ [d])).flatten =
        (x ++ [d]) ++ (((y :: u).map (fun x => x ++ [d])).flatten) by simp]
      rw [List.dropLast_append_of_ne_nil _ (by simp)]
      rw [ih (by simp)]
      simp [joinSep]

theorem Serialize_eq_joinSep {p : ParamPackage} (hne : p ≠ []) :
    Serialize p = joinSep ',' (p.map pairText) := by
  unfold Serialize
  rw [if_neg hne]
  rw [show p.map (fun kv => EscapeParam kv.1 ++ ':' :: EscapeParam kv.2 ++ [',']) =
    (p.map pairText).map (fun x => x ++ [',']) by
      rw [List.map_map]
      exact List.map_congr_left (fun kv _ => by simp [pairText])]
  exact flatten_map_concat_dropLast ',' (p.map pairText) (by simpa using hne)

theorem mem_pairText {c : Char} {kv : List Char × List Char} (h : c ∈ pairText kv) :
    c = ':' ∨ c ∈ EscapeParam kv.1 ∨ c ∈ EscapeParam kv.2 := by
  simp only [pairText, List.mem_append, List.mem_cons] at h
  tauto

theorem not_mem_Serialize {c : Char} {p : ParamPackage}
    (hc : c ≠ '$' ∧ c ≠ '0' ∧ c ≠ '1' ∧ c ≠ '2' ∧ c ≠ ':' ∧ c ≠ ',')
    (hp : ∀ kv ∈ p, c ∉ kv.1 ∧ c ∉ kv.2) (hne : p ≠ []) :
    c ∉ Serialize p := by
  rw [Serialize_eq_joinSep hne]
  intro h
  rcases mem_joinSep h with h | ⟨x, hx, hcx⟩
  · exact hc.2.2.2.2.2 h
  · obtain ⟨kv, hkv, rfl⟩ := List.mem_map.mp hx
    rcases mem_pairText hcx with h | h | h
    · exact hc.2.2.2.2.1 h
    · exact not_mem_escape ⟨hc.1, hc.2.1, hc.2.2.1, hc.2.2.2.1⟩ ((hp kv hkv).1) h
    · exact not_mem_escape ⟨hc.1, hc.2.1, hc.2.2.1, hc.2.2.2.1⟩ ((hp kv hkv).2) h

theorem comma_not_mem_pairText (kv : List Char × List Char) : ',' ∉ pairText kv := by
  intro h
  rcases mem_pairText h with h | h | h
  · simp at h
  · exact comma_not_mem_escape _ h
  · exact comma_not_mem_escape _ h

theorem ltStr_irrefl (s : List Char) : ltStr s s = false := by
  induction s with
  | nil => rfl
  | cons c cs ih => simp [ltStr, ih]

theorem ltStr_asymm {a b : List Char} (h : ltStr a b = true) : ltStr b a = false := by
  induction a generalizing b with
  | nil =>
    cases b with
    | nil => simp [ltStr] at h
    | cons y ys => simp [ltStr]
  | cons x xs ih =>
    cases b with
    | nil => simp [ltStr] at h
    | cons y ys =>
      simp only [ltStr] at h ⊢
      by_cases h1 : x.toNat < y.toNat
      · have h2 : ¬ y.toNat < x.toNat := Nat.lt_asymm h1
        simp [h1, h2]
      · by_cases h2 : y.toNat < x.toNat
        · simp [h1, h2] at h
        · simp only [h1, h2, if_false] at h
          simp [h1, h2, ih h]

theorem ltStr_trans {a b c : List Char} (h1 : ltStr a b = true) (h2 : ltStr b c = true) :
    ltStr a c = true := by
  induction a generalizing b c with
  | nil =>
    cases c with
    | nil =>
      cases b with
      | nil => simp [ltStr] at h1
      | cons y ys => simp [ltStr] at h2
    | cons z zs => simp [ltStr]
  | cons x xs ih =>
    cases b with
    | nil => simp [ltStr] at h1
    | cons y ys =>
      cases c with
      | nil => simp [ltStr] at h2
      | cons z zs =>
        simp only [ltStr] at h1 h2 ⊢
        by_cases hxy : x.toNat < y.toNat
        · by_cases hyz : y.toNat < z.toNat
          · simp [Nat.lt_trans hxy hyz]
          · by_cases hzy : z.toNat < y.toNat
            · simp [hyz, hzy] at h2
            · have hyz2 : y.toNat = z.toNat := Nat.le_antisymm
                (Nat.le_of_not_lt hzy) (Nat.le_of_not_lt hyz)
              simp [hyz2 ▸ hxy]
        · by_cases hyx : y.toNat < x.toNat
          · simp [hxy, hyx] at h1
          · have hxy2 : x.toNat = y.toNat := Nat.le_antisymm
              (Nat.le_of_not_lt hyx) (Nat.le_of_not_lt hxy)
            simp only [hxy, hyx, if_false] at h1
            by_cases hyz : y.toNat < z.toNat
            · simp [hxy2 ▸ hyz]
            · by_cases hzy : z.toNat < y.toNat
              · simp [hyz, hzy] at h2
              · simp only [hyz, hzy, if_false] at h2
                have hxz : ¬ x.toNat < z.toNat := by omega
                have hzx : ¬ z.toNat < x.toNat := by omega
                simp [hxz, hzx, ih h1 h2]

theorem ltStr_ne {a b : List Char} (h : ltStr a b = true) : a ≠ b := by
  intro e
  subst e
  rw [ltStr_irrefl] at h
  exact Bool.false_ne_true h

theorem insertSorted_append {k v : List Char} {acc : ParamPackage}
    (h : ∀ a ∈ acc, ltStr a.1 k = true) :
    insertSorted k v acc = acc ++ [(k, v)] := by
  induction acc with
  | nil => rfl
  | cons kv t ih =>
    have hk := h kv (List.mem_cons_self kv t)
    have h1 : ltStr k kv.1 = false := ltStr_asymm hk
    have h2 : k ≠ kv.1 := fun e => ltStr_ne hk e.symm
    simp only [insertSorted, h1, Bool.false_eq_true, if_false, h2]
    rw [ih (fun a ha => h a (List.mem_cons_of_mem kv ha))]
    simp

theorem foldl_insertSorted_sorted {p : ParamPackage} (hs : SortedKeys p) :
    ∀ acc : ParamPackage, (∀ a ∈ acc, ∀ b ∈ p, ltStr a.1 b.1 = true) →
      p.foldl (fun acc kv => insertSorted kv.1 kv.2 acc) acc = acc ++ p := by
  induction p with
  | nil => intro acc _; simp
  | cons kv t ih =>
    intro acc hacc
    rw [List.foldl_cons]
    rw [insertSorted_append (fun a ha => hacc a ha kv (List.mem_cons_self kv t))]
    have hcond : ∀ a ∈ acc ++ [(kv.1, kv.2)], ∀ b ∈ t, ltStr a.1 b.1 = true := by
      intro a ha b hb
      rcases List.mem_append.mp ha with ha2 | ha2
      · exact hacc a ha2 b (List.mem_cons_of_mem kv hb)
      · rw [List.mem_singleton.mp ha2]
        exact (List.pairwise_cons.mp hs).1 b hb
    rw [ih (List.Pairwise.of_cons hs) (acc ++ [(kv.1, kv.2)]) hcond]
    simp

theorem lookupKV_singleton (k v : List Char) : lookupKV k [(k, v)] = some v := by
  simp [lookupKV]

end Common

/-
Placeholder machinery on bracket-free strings, token detection, substring
facts, and the all-or-nothing integer parse.
-/

namespace Common

theorem scanMatch_none {s : List Char} (h : '[' ∉ s) : ∀ i, scanMatch s i = none := by
  induction s with
  | nil => intro i; rfl
  | cons c t ih =>
    intro i
    have hc : c ≠ '[' := fun e => h (e ▸ List.mem_cons_self c t)
    have ht : '[' ∉ t := fun e => h (List.mem_cons_of_mem c e)
    simp [scanMatch, hc, ih ht]

theorem PlaceholderifyData_id {s : List Char} (h : '[' ∉ s) :
    PlaceholderifyData s = (s, []) := by
  unfold PlaceholderifyData
  show PlaceholderifyAux (s.length + 1) s [] = (s, [])
  simp [PlaceholderifyAux, scanMatch_none h 0]

theorem hasTok_eq_false {s : List Char} (h : '#' ∉ s) : hasTok s = false := by
  induction s with
  | nil => rfl
  | cons a t ih =>
    have ha : a ≠ '#' := fun e => h (e ▸ List.mem_cons_self a t)
    have ht : '#' ∉ t := fun e => h (List.mem_cons_of_mem a e)
    cases t with
    | nil => rfl
    | cons b u =>
      cases u with
      | nil => rfl
      | cons c r =>
        show ((a == '#' && b == '#' && c.isDigit) || hasTok (b :: c :: r)) = false
        rw [ih ht]
        simp [ha]

theorem stoiAll_eq_none {x : List Char} {l : List (List Char)}
    (hx : x ∈ l) (hnone : stoi x = none) : stoiAll l = none := by
  induction l with
  | nil => simp at hx
  | cons y t ih =>
    rcases List.mem_cons.mp hx with h | h
    · subst h
      cases hst : stoiAll t <;> simp [stoiAll, hnone, hst]
    · rw [show stoiAll (y :: t) = match stoi y, stoiAll t with
        | some i, some r => some (i :: r)
        | _, _ => none from rfl]
      rw [ih h]
      cases hsy : stoi y <;> simp

theorem isPref_append_self (v b : List Char) : isPref v (v ++ b) = true := by
  induction v with
  | nil => rfl
  | cons c t ih => simp [isPref, ih]

theorem hasSubstr_of_decomp (v a b : List Char) : hasSubstr v (a ++ v ++ b) = true := by
  induction a with
  | nil =>
    rw [List.nil_append]
    cases hvb : v ++ b with
    | nil =>
      have hv : v = [] := (List.append_eq_nil.mp hvb).1
      subst hv
      rfl
    | cons c cs =>
      show (isPref v (c :: cs) || hasSubstr v cs) = true
      rw [← hvb, isPref_append_self]
      simp
  | cons a0 as ih =>
    show (isPref v (a0 :: (as ++ v ++ b)) || hasSubstr v (as ++ v ++ b)) = true
    rw [ih]
    simp

end Common

/-
The core round trip: a sorted package whose keys and values contain no '['
and whose values contain no placeholder token is reconstructed exactly by
the deserializing constructor from its own serialization.
-/

namespace Common

theorem parsePairStep_pairText (acc : ParamPackage) (kv : List Char × List Char) :
    parsePairStep acc (pairText kv) = insertSorted kv.1 kv.2 acc := by
  unfold parsePairStep pairText
  rw [SplitString_append (EscapeParam kv.2) (colon_not_mem_escape kv.1)]
  rw [SplitString_no_delim (colon_not_mem_escape kv.2)]
  simp [unescape_escape]

theorem foldl_parsePairStep_map (p : ParamPackage) :
    ∀ acc : ParamPackage, (p.map pairText).foldl parsePairStep acc =
      p.foldl (fun acc kv => insertSorted kv.1 kv.2 acc) acc := by
  induction p with
  | nil => intro acc; rfl
  | cons kv t ih =>
    intro acc
    simp only [List.map_cons, List.foldl_cons, parsePairStep_pairText]
    exact ih _

theorem FromSerialized_Serialize (p : ParamPackage) (hs : SortedKeys p)
    (hp : ∀ kv ∈ p, '[' ∉ kv.1 ∧ '[' ∉ kv.2 ∧ hasTok kv.2 = false) :
    FromSerialized (Serialize p) = some p := by
  by_cases h0 : p = []
  · subst h0
    rfl
  · have hnb : '[' ∉ Serialize p :=
      not_mem_Serialize (by refine ⟨?_, ?_, ?_, ?_, ?_, ?_⟩ <;> decide)
        (fun kv hkv => ⟨(hp kv hkv).1, (hp kv hkv).2.1⟩) h0
    have hone : Serialize p ≠ "[empty]".data := by
      intro heq
      have hmem : ('[' : Char) ∈ "[empty]".data := by decide
      exact hnb (heq.symm ▸ hmem)
    have hsplit : SplitString ',' (Serialize p) = p.map pairText := by
      rw [Serialize_eq_joinSep h0]
      refine SplitString_joinSep (fun x hx => ?_) (by simpa using h0)
      obtain ⟨kv, _, rfl⟩ := List.mem_map.mp hx
      exact comma_not_mem_pairText kv
    have hfold : (SplitString ',' (Serialize p)).foldl parsePairStep [] = p := by
      rw [hsplit, foldl_parsePairStep_map]
      rw [foldl_insertSorted_sorted hs [] (by simp)]
      simp
    have hany : (p.any fun kv => hasTok kv.2) = false := by
      cases hcase : p.any (fun kv => hasTok kv.2) with
      | false => rfl
      | true =>
        exfalso
        obtain ⟨kv, hkv, htok⟩ := List.any_eq_true.mp hcase
        rw [(hp kv hkv).2.2] at htok
        exact Bool.false_ne_true htok
    unfold FromSerialized
    rw [if_neg hone]
    simp only [PlaceholderifyData_id hnb]
    simp [hfold, hany]

end Common

/-
Bracketed-value shape facts used by the package-list getter.
-/

namespace Common

theorem isBracketed_shape (m : List Char) : isBracketed ('[' :: (m ++ [']'])) = true := by
  unfold isBracketed
  have h2 : ('[' :: (m ++ [']'])).getLast? = some ']' := by
    rw [show ('[' :: (m ++ [']'])) = ('[' :: m) ++ [']'] by simp]
    exact List.getLast?_concat _
  rw [h2]
  rfl

theorem innerVal_shape (m : List Char) : innerVal ('[' :: (m ++ [']'])) = m := by
  simp [innerVal]

theorem comma_mem_Serialize_of_two {p : ParamPackage} (h : 2 ≤ p.length) :
    ',' ∈ Serialize p := by
  have hne : p ≠ [] := by
    intro e
    rw [e] at h
    simp at h
  rw [Serialize_eq_joinSep hne]
  exact joinSep_delim_mem (by simpa using h)

end Common

/-
The claims.
-/

open Common

/-- C1.  ParamPackage::Set(key, ParamPackage) stores value.Serialize() without
surrounding brackets (line 283), so with A empty and B = a=1, b=2 the stored
value is "a:1,b:2", not "[" ++ B.Serialize() ++ "]", and A.Get("outer",
ParamPackage{}) takes the not-a-ParamPackage branch and returns the default
empty package instead of reconstructing B, contradicting the claim. -/
theorem c1_nested_set_get_bug :
    lookupKV ("outer".data)
        (SetPackage [] ("outer".data) [("a".data, "1".data), ("b".data, "2".data)]) =
      some ("a:1,b:2".data) ∧
    "a:1,b:2".data ≠ '[' :: ("a:1,b:2".data ++ [']']) ∧
    GetPackage (SetPackage [] ("outer".data) [("a".data, "1".data), ("b".data, "2".data)])
        ("outer".data) [] = some [] ∧
    ([] : ParamPackage) ≠ [("a".data, "1".data), ("b".data, "2".data)] := by
  decide

/-- C2, counterexample.  The container x = k ↦ "[a|b]" serializes to
"k:[a|b]", but reconstructing from that string throws (the stored value
becomes the placeholder "##0" and ReplacePlaceholders throws on it), so
decode(encode(x)) is not x for every representable container. -/
theorem c2_counterexample :
    Serialize [("k".data, "[a|b]".data)] = "k:[a|b]".data ∧
    FromSerialized ("k:[a|b]".data) = none := by
  decide

/-- C2, amended.  For every container whose keys and values contain no '['
and whose values contain no "##"-digit placeholder token, constructing a
container from x.Serialize() yields exactly x's key-value map. -/
theorem c2_roundtrip (p : ParamPackage) (hs : SortedKeys p)
    (hp : ∀ kv ∈ p, '[' ∉ kv.1 ∧ '[' ∉ kv.2 ∧ hasTok kv.2 = false) :
    FromSerialized (Serialize p) = some p :=
  FromSerialized_Serialize p hs hp

/-- C2, witness. -/
theorem c2_roundtrip_witness :
    FromSerialized (Serialize [("a".data, "1".data), ("b".data, "2".data)]) =
      some [("a".data, "1".data), ("b".data, "2".data)] :=
  c2_roundtrip [("a".data, "1".data), ("b".data, "2".data)] (by decide) (by decide)

/-- C3.  The deserializing constructor is not total: on "a:[x]" the stored
value becomes the placeholder "##0", and the final ReplacePlaceholders pass
calls std::stoi on the full smatch "##0", which throws std::invalid_argument
out of the constructor (modelled as none). -/
theorem c3_constructor_throws :
    FromSerialized ("a:[x]".data) = none ∧
    PlaceholderifyData ("a:[x]".data) = ("a:##0".data, ["[x]".data]) ∧
    ReplacePlaceholders ("##0".data) ["[x]".data] = none := by
  decide

/-- C4, counterexample.  Serialize escapes every value, bracketed or not: the
bracketed value "[a:b]" appears in the output as "[a$0b]", its inner ':'
escaped, so the bracket content is neither unescaped nor intact. -/
theorem c4_escape_counterexample :
    isBracketed ("[a:b]".data) = true ∧
    Serialize [("k".data, "[a:b]".data)] = "k:[a$0b]".data ∧
    hasSubstr ("[a:b]".data) (Serialize [("k".data, "[a:b]".data)]) = false := by
  decide

/-- C4, amended.  Serialize applies the scalar escaping uniformly to keys and
to all values; a bracketed value appears unescaped and intact in the output
exactly when its text contains none of '$', ',', ':' (as is the case for
bracket values joined from escape-free scalars). -/
theorem c4_bracketed_intact (p : ParamPackage) (k v : List Char)
    (hmem : (k, v) ∈ p) (hbr : isBracketed v = true)
    (hv : ∀ c ∈ v, c ≠ '$' ∧ c ≠ ',' ∧ c ≠ ':') :
    hasSubstr v (Serialize p) = true := by
  have hne : p ≠ [] := by
    intro h
    rw [h] at hmem
    simp at hmem
  rw [Serialize_eq_joinSep hne]
  have hm : pairText (k, v) ∈ p.map pairText := List.mem_map_of_mem _ hmem
  obtain ⟨a, b, hab⟩ := joinSep_mem_decomp ',' hm
  rw [hab]
  rw [show pairText (k, v) = (EscapeParam k ++ [':']) ++ v by
    simp [pairText, escape_id hv]]
  rw [show a ++ ((EscapeParam k ++ [':']) ++ v) ++ b =
    (a ++ (EscapeParam k ++ [':'])) ++ v ++ b by simp]
  exact hasSubstr_of_decomp v _ b

/-- C4, witness. -/
theorem c4_bracketed_intact_witness :
    hasSubstr ("[a|b]".data) (Serialize [("k".data, "[a|b]".data)]) = true :=
  c4_bracketed_intact [("k".data, "[a|b]".data)] ("k".data) ("[a|b]".data)
    (by decide) (by decide) (by decide)

/-- C5, counterexample.  The scalar value "##0" (not the empty sentinel) does
not round trip: the reconstruction throws, so Get never returns it. -/
theorem c5_counterexample :
    (FromSerialized (Serialize (SetString [] ("a".data) ("##0".data)))).map
      (fun p => GetString p ("a".data) []) ≠ some ("##0".data) := by
  decide

/-- C5, amended.  For every key k and scalar value v with no '[' in either
and no placeholder token in v, Set(k, v) then Serialize then reconstruct then
Get(k, "") returns exactly v (this covers values with ':', ',' and '$' such
as "x:y,z$w"). -/
theorem c5_scalar_roundtrip (k v : List Char)
    (h1 : '[' ∉ k) (h2 : '[' ∉ v) (h3 : hasTok v = false) :
    (FromSerialized (Serialize (SetString [] k v))).map
      (fun p => GetString p k []) = some v := by
  have hset : SetString [] k v = [(k, v)] := rfl
  rw [hset]
  rw [FromSerialized_Serialize [(k, v)] (List.pairwise_singleton _ _)
    (fun kv hkv => by rw [List.mem_singleton.mp hkv]; exact ⟨h1, h2, h3⟩)]
  simp [GetString, lookupKV]

/-- C5, witness: the spec's own escaping example. -/
theorem c5_scalar_roundtrip_witness :
    (FromSerialized (Serialize (SetString [] ("a".data) ("x:y,z$w".data)))).map
      (fun p => GetString p ("a".data) []) = some ("x:y,z$w".data) :=
  c5_scalar_roundtrip ("a".data) ("x:y,z$w".data) (by decide) (by decide) (by decide)

/-- C6, counterexample.  For the distinct single-key containers B1 = a=1 and
B2 = b=2, Set stores "[a:1|b:2]" as claimed, but Get(key, {}) rejects the
value because the inner text has no top-level ',' ("is a vector of a
primitive type") and returns the default, not the two containers. -/
theorem c6_counterexample :
    lookupKV ("k".data)
        (SetPackageList [] ("k".data) [[("a".data, "1".data)], [("b".data, "2".data)]]) =
      some ("[a:1|b:2]".data) ∧
    GetPackageList
        (SetPackageList [] ("k".data) [[("a".data, "1".data)], [("b".data, "2".data)]])
        ("k".data) [] = some [] ∧
    ([] : List ParamPackage) ≠ [[("a".data, "1".data)], [("b".data, "2".data)]] := by
  decide

/-- Evaluation of GetPackageList once the looked-up value is known. -/
theorem GetPackageList_eval (v key : List Char) (d : List ParamPackage)
    (p : ParamPackage) (h : lookupKV key p = some v) :
    GetPackageList p key d =
      if isBracketed v then
        let val := (PlaceholderifyData (innerVal v)).1
        if containsCh ',' val = false then some d
        else
          let vec := SplitString '|' val
          if vec.any hasTok then none else fromSerializedAll vec
      else some d := by
  unfold GetPackageList
  rw [h]

/-- C6, amended.  Set(key, {B1, B2}) always stores exactly
"[" ++ B1.Serialize() ++ "|" ++ B2.Serialize() ++ "]"; and when B1 and B2 are
nonempty with keys and values free of '[', '|' and '#', and at least one of
them has two or more entries (so the joined text contains a top-level comma),
Get(key, {}) returns exactly [B1, B2], in order.  For two single-entry
containers the getter instead returns the supplied default. -/
theorem c6_list_roundtrip (B1 B2 : ParamPackage) (key : List Char)
    (hs1 : SortedKeys B1) (hs2 : SortedKeys B2)
    (hne1 : B1 ≠ []) (hne2 : B2 ≠ [])
    (hlen : 2 ≤ B1.length ∨ 2 ≤ B2.length)
    (hch : ∀ kv ∈ B1 ++ B2,
      ('[' ∉ kv.1 ∧ '|' ∉ kv.1 ∧ '#' ∉ kv.1) ∧
      ('[' ∉ kv.2 ∧ '|' ∉ kv.2 ∧ '#' ∉ kv.2)) :
    lookupKV key (SetPackageList [] key [B1, B2]) =
      some ('[' :: ((Serialize B1 ++ '|' :: Serialize B2) ++ [']'])) ∧
    GetPackageList (SetPackageList [] key [B1, B2]) key [] = some [B1, B2] := by
  have hch1 : ∀ kv ∈ B1,
      ('[' ∉ kv.1 ∧ '|' ∉ kv.1 ∧ '#' ∉ kv.1) ∧
      ('[' ∉ kv.2 ∧ '|' ∉ kv.2 ∧ '#' ∉ kv.2) :=
    fun kv hkv => hch kv (List.mem_append_left _ hkv)
  have hch2 : ∀ kv ∈ B2,
      ('[' ∉ kv.1 ∧ '|' ∉ kv.1 ∧ '#' ∉ kv.1) ∧
      ('[' ∉ kv.2 ∧ '|' ∉ kv.2 ∧ '#' ∉ kv.2) :=
    fun kv hkv => hch kv (List.mem_append_right _ hkv)
  have h1br : '[' ∉ Serialize B1 :=
    not_mem_Serialize (by refine ⟨?_, ?_, ?_, ?_, ?_, ?_⟩ <;> decide)
      (fun kv hkv => ⟨(hch1 kv hkv).1.1, (hch1 kv hkv).2.1⟩) hne1
  have h2br : '[' ∉ Serialize B2 :=
    not_mem_Serialize (by refine ⟨?_, ?_, ?_, ?_, ?_, ?_⟩ <;> decide)
      (fun kv hkv => ⟨(hch2 kv hkv).1.1, (hch2 kv hkv).2.1⟩) hne2
  have h1pipe : '|' ∉ Serialize B1 :=
    not_mem_Serialize (by refine ⟨?_, ?_, ?_, ?_, ?_, ?_⟩ <;> decide)
      (fun kv hkv => ⟨(hch1 kv hkv).1.2.1, (hch1 kv hkv).2.2.1⟩) hne1
  have h2pipe : '|' ∉ Serialize B2 :=
    not_mem_Serialize (by refine ⟨?_, ?_, ?_, ?_, ?_, ?_⟩ <;> decide)
      (fun kv hkv => ⟨(hch2 kv hkv).1.2.1, (hch2 kv hkv).2.2.1⟩) hne2
  have h1hash : '#' ∉ Serialize B1 :=
    not_mem_Serialize (by refine ⟨?_, ?_, ?_, ?_, ?_, ?_⟩ <;> decide)
      (fun kv hkv => ⟨(hch1 kv hkv).1.2.2, (hch1 kv hkv).2.2.2⟩) hne1
  have h2hash : '#' ∉ Serialize B2 :=
    not_mem_Serialize (by refine ⟨?_, ?_, ?_, ?_, ?_, ?_⟩ <;> decide)
      (fun kv hkv => ⟨(hch2 kv hkv).1.2.2, (hch2 kv hkv).2.2.2⟩) hne2
  have hstore : SetPackageList [] key [B1, B2] =
      [(key, '[' :: ((Serialize B1 ++ '|' :: Serialize B2) ++ [']']))] := by
    simp [SetPackageList, joinSep, insertSorted]
  have hmnb : '[' ∉ Serialize B1 ++ '|' :: Serialize B2 := by
    intro hm
    rcases List.mem_append.mp hm with h | h
    · exact h1br h
    · rcases List.mem_cons.mp h with h | h
      · exact absurd h (by decide)
      · exact h2br h
  have hcomma : containsCh ',' (Serialize B1 ++ '|' :: Serialize B2) = true := by
    rw [containsCh_eq_true_iff]
    rcases hlen with h | h
    · exact List.mem_append_left _ (comma_mem_Serialize_of_two h)
    · exact List.mem_append_right _
        (List.mem_cons_of_mem _ (comma_mem_Serialize_of_two h))
  have hsplit : SplitString '|' (Serialize B1 ++ '|' :: Serialize B2) =
      [Serialize B1, Serialize B2] := by
    rw [SplitString_append (Serialize B2) h1pipe]
    rw [SplitString_no_delim h2pipe]
  have hp1 : ∀ kv ∈ B1, '[' ∉ kv.1 ∧ '[' ∉ kv.2 ∧ hasTok kv.2 = false :=
    fun kv hkv =>
      ⟨(hch1 kv hkv).1.1, (hch1 kv hkv).2.1, hasTok_eq_false (hch1 kv hkv).2.2.2⟩
  have hp2 : ∀ kv ∈ B2, '[' ∉ kv.1 ∧ '[' ∉ kv.2 ∧ hasTok kv.2 = false :=
    fun kv hkv =>
      ⟨(hch2 kv hkv).1.1, (hch2 kv hkv).2.1, hasTok_eq_false (hch2 kv hkv).2.2.2⟩
  have hlook : lookupKV key (SetPackageList [] key [B1, B2]) =
      some ('[' :: ((Serialize B1 ++ '|' :: Serialize B2) ++ [']'])) := by
    rw [hstore, lookupKV_singleton]
  constructor
  · exact hlook
  · rw [GetPackageList_eval _ key [] _ hlook]
    rw [isBracketed_shape, if_pos rfl]
    simp only [innerVal_shape, PlaceholderifyData_id hmnb]
    rw [if_neg (by simp [hcomma])]
    rw [hsplit]
    rw [if_neg (by simp [hasTok_eq_false h1hash, hasTok_eq_false h2hash])]
    simp [fromSerializedAll, FromSerialized_Serialize B1 hs1 hp1,
      FromSerialized_Serialize B2 hs2 hp2]

/-- C6, witness. -/
theorem c6_list_roundtrip_witness :
    lookupKV ("k".data) (SetPackageList [] ("k".data)
        [[("a".data, "1".data), ("b".data, "2".data)],
         [("c".data, "3".data), ("d".data, "4".data)]]) =
      some ('[' :: ((Serialize [("a".data, "1".data), ("b".data, "2".data)] ++
        '|' :: Serialize [("c".data, "3".data), ("d".data, "4".data)]) ++ [']'])) ∧
    GetPackageList (SetPackageList [] ("k".data)
        [[("a".data, "1".data), ("b".data, "2".data)],
         [("c".data, "3".data), ("d".data, "4".data)]]) ("k".data) [] =
      some [[("a".data, "1".data), ("b".data, "2".data)],
            [("c".data, "3".data), ("d".data, "4".data)]] :=
  c6_list_roundtrip
    [("a".data, "1".data), ("b".data, "2".data)]
    [("c".data, "3".data), ("d".data, "4".data)]
    ("k".data) (by decide) (by decide) (by decide) (by decide)
    (Or.inl (by decide)) (by decide)

/-- C7.  Get(key, vector<int>) first decodes the stored value as a list of
strings with default {}; when that decode is empty (in particular when the
stored value is not bracketed) it returns the supplied default, and when any
decoded element fails integer parsing it returns the supplied default with no
partial result. -/
theorem c7_int_list_all_or_nothing (p : ParamPackage) (key : List Char) (d : List Int) :
    (GetStringList p key [] = [] → GetIntList p key d = d) ∧
    (∀ v, lookupKV key p = some v → isBracketed v = false → GetIntList p key d = d) ∧
    (∀ x, x ∈ GetStringList p key [] → stoi x = none → GetIntList p key d = d) := by
  refine ⟨?_, ?_, ?_⟩
  · intro h
    simp [GetIntList, h]
  · intro v hv hbr
    have h : GetStringList p key [] = [] := by
      simp [GetStringList, hv, hbr]
    simp [GetIntList, h]
  · intro x hx hnone
    by_cases h : GetStringList p key [] = []
    · simp [GetIntList, h]
    · have hall : stoiAll (GetStringList p key []) = none := stoiAll_eq_none hx hnone
      simp [GetIntList, h, hall]

/-- C7, witness: a bracketed value with a non-numeric element yields the
default. -/
theorem c7_int_list_witness :
    GetIntList [(("k".data), "[notanum]".data)] ("k".data) [7] = [7] :=
  (c7_int_list_all_or_nothing [(("k".data), "[notanum]".data)] ("k".data) [7]).2.2
    ("notanum".data) (by decide) (by decide)

/-- C8.  Every pair that does not split into exactly two parts on ':' leaves
the map unchanged and parsing continues; constructing from "a:1,bad,c:3"
yields exactly a=1 and c=3. -/
theorem c8_malformed_pairs :
    (∀ (acc : ParamPackage) (pair : List Char),
      (SplitString ':' pair).length ≠ 2 → parsePairStep acc pair = acc) ∧
    FromSerialized ("a:1,bad,c:3".data) =
      some [("a".data, "1".data), ("c".data, "3".data)] := by
  constructor
  · intro acc pair h
    unfold parsePairStep
    rcases hsp : SplitString ':' pair with _ | ⟨k, _ | ⟨v, _ | ⟨w, rest⟩⟩⟩
    · rfl
    · rfl
    · rw [hsp] at h
      simp at h
    · rfl
  · decide

/-- C8, witness: the lone pair "bad" (one split part) is skipped. -/
theorem c8_malformed_pairs_witness :
    parsePairStep [("x".data, "y".data)] ("bad".data) = [("x".data, "y".data)] :=
  c8_malformed_pairs.1 [("x".data, "y".data)] ("bad".data) (by decide)

/-- C9.  A default-constructed container serializes to "[empty]", a container
constructed from "[empty]" is empty, and Has is false on it for every key. -/
theorem c9_empty_sentinel :
    Serialize [] = "[empty]".data ∧
    FromSerialized ("[empty]".data) = some ([] : ParamPackage) ∧
    ∀ k : List Char, Has [] k = false :=
  ⟨by decide, by decide, fun _ => rfl⟩

/-- C10.  Placeholder masking is not inverted by ReplacePlaceholders: for
s = "[a]" PlaceholderifyData yields "##0" with lookup ["[a]"], and
ReplacePlaceholders("##0", ["[a]"]) throws std::invalid_argument (the
range-for over the smatch calls std::stoi on the full match "##0") instead of
returning "[a]". -/
theorem c10_restore_throws :
    PlaceholderifyData ("[a]".data) = ("##0".data, ["[a]".data]) ∧
    ReplacePlaceholders ("##0".data) ["[a]".data] = none := by
  decide
